import Mathlib

/-!
# Shallow embedding of the `nomicon_book_vec` growable-array implementation

This file embeds the two Rust sources of the repository:

* `src/refactor3.rs` — namespace `Refactor3`: `RawVec`, `Vec`
  (push/pop/insert/remove/drain/into_iter, `Deref` view), the shared raw
  cursor `RawValIter`, and the two iterator wrappers `IntoIter` and `Drain`
  with their `Drop` implementations.
* `src/refactor2.rs` — namespace `Refactor2`: the earlier refactor of the
  same container (inline `ptr`/`cap`/`len` fields, no zero-sized-type
  support, no drain).

Raw memory for a block of `cap` element slots is modelled as a
`List (Option T)` of length `cap`: `none` is an uninitialized slot, `some x`
a slot holding `x`.  `ptr::write`, `ptr::read` and `ptr::copy` become the
explicit primitives `ptrWrite`, `ptrRead`, `ptrCopy` below; reading
uninitialized or out-of-range memory (undefined behavior in the source)
yields `none`.  Addresses are measured in element units, so the source's
`offset(i)` arithmetic becomes index arithmetic, and the zero-sized-type
counter mode of `RawValIter` coincides with the ordinary mode.

Fatal conditions (`assert!` failures and allocator exhaustion, which abort
the process in the source) are modelled as `Except Fatal` results.  The
allocator collaborator is represented by an `allocOk` flag where the claims
need the failure path to be distinguishable; the `Vec`-level operations are
embedded on the non-zero-sized, allocation-succeeds path, which is the only
path on which the source's element arithmetic is defined (the grow
agreement lemma `Refactor3.RawVec.grow_eq_growNZ` ties that path to the
full transcription of `grow`).
-/

namespace NomiconVec

variable {T : Type}

/-! ## Definitions -/

/-- `usize::MAX` on the 64-bit target; written `!0` in the source. -/
def USIZE_MAX : Nat := 2 ^ 64 - 1

/-- One slot of raw memory for elements of type `T`: `none` models an
uninitialized slot, `some x` a slot holding the value `x`. -/
abbrev Slot (T : Type) := Option T

/-- `ptr::read(base.offset(i))`: the contents of slot `i`; `none` models a
read of uninitialized or out-of-range memory (undefined behavior in the
source, never exercised under the well-formedness invariant). -/
def ptrRead (slots : List (Slot T)) (i : Nat) : Slot T :=
  slots.getD i none

/-- `ptr::write(base.offset(i), v)`: store `v` into slot `i` without reading
the old contents (no destructor runs on the overwritten slot). -/
def ptrWrite (slots : List (Slot T)) (i : Nat) (v : T) : List (Slot T) :=
  slots.set i (some v)

/-- `ptr::copy(base.offset(src), base.offset(dest), count)`: overlap-safe
(memmove) copy — slot `dest + k` of the result holds the old contents of
slot `src + k` for `k < count`, all other slots are unchanged. -/
def ptrCopy (slots : List (Slot T)) (src dest count : Nat) : List (Slot T) :=
  (List.range slots.length).map (fun i =>
    if dest ≤ i ∧ i < dest + count then ptrRead slots (src + (i - dest))
    else ptrRead slots i)

/-- The fatal outcomes of the system: `assert!` failures and allocator
exhaustion, all of which abort the process in the source. -/
inductive Fatal : Type
  /-- `assert!(elem_size != 0, "capacity overflow")` in `RawVec::grow`. -/
  | capacityOverflow
  /-- `oom()` on allocator failure in `grow`. -/
  | oom
  /-- `assert!(..., "index out of bounds")` in `Vec::insert` / `Vec::remove`. -/
  | indexOutOfBounds
  /-- `assert!(mem::size_of::<T>() != 0, ...)` in `refactor2.rs`'s `Vec::new`. -/
  | zstUnsupported
  deriving DecidableEq, Repr

namespace Refactor3

/-- `struct RawVec<T> { ptr: NonNull<T>, cap: usize }` of `refactor3.rs`,
together with the contents of the block `ptr` points to (`slots`, length
`cap`; empty for the dangling pointer of an unallocated buffer). -/
structure RawVec (T : Type) : Type where
  cap : Nat
  slots : List (Slot T)
  deriving Repr

/-- `RawVec::new` (refactor3.rs:17-22): capacity `!0` for a zero-sized
element type, otherwise `0`; dangling pointer, no allocation.  `elemSize`
is `mem::size_of::<T>()`. -/
def RawVec.new (elemSize : Nat) : RawVec T :=
  { cap := if elemSize = 0 then USIZE_MAX else 0, slots := [] }

/-- `RawVec::grow` (refactor3.rs:24-52), full transcription: asserts
`elem_size != 0` ("capacity overflow"), then allocates capacity 1 when
`cap == 0` and otherwise reallocates to `2 * cap` (reallocation preserves
the old block's contents); allocator failure (`allocOk = false`) is
`oom()`. -/
def RawVec.grow (elemSize : Nat) (allocOk : Bool) (rv : RawVec T) :
    Except Fatal (RawVec T) :=
  if elemSize = 0 then .error .capacityOverflow
  else if !allocOk then .error .oom
  else if rv.cap = 0 then .ok { cap := 1, slots := [none] }
  else
    .ok { cap := 2 * rv.cap
          slots := rv.slots ++ List.replicate (2 * rv.cap - rv.slots.length) none }

/-- `RawVec::grow` on the path every `Vec` operation of the claims runs on:
non-zero-sized element type, allocation succeeds (cf. `grow_eq_growNZ`). -/
def RawVec.growNZ (rv : RawVec T) : RawVec T :=
  if rv.cap = 0 then { cap := 1, slots := [none] }
  else { cap := 2 * rv.cap
         slots := rv.slots ++ List.replicate (2 * rv.cap - rv.slots.length) none }

/-- `struct Vec<T> { buf: RawVec<T>, len: usize }` (refactor3.rs:68-72). -/
structure Vec (T : Type) : Type where
  buf : RawVec T
  len : Nat
  deriving Repr

/-- `Vec::cap` (refactor3.rs:77). -/
def Vec.cap (v : Vec T) : Nat := v.buf.cap

/-- `Vec::new` (refactor3.rs:79-81). -/
def Vec.new (elemSize : Nat) : Vec T :=
  { buf := RawVec.new elemSize, len := 0 }

/-- `Vec::push` (refactor3.rs:82-91): grow when full, `ptr::write` the
element into slot `len`, increment `len`. -/
def Vec.push (v : Vec T) (elem : T) : Vec T :=
  let buf := if v.len = v.cap then v.buf.growNZ else v.buf
  { buf := { buf with slots := ptrWrite buf.slots v.len elem }
    len := v.len + 1 }

/-- `Vec::pop` (refactor3.rs:93-102): `None` when empty, otherwise decrement
`len` and `ptr::read` slot `len` out. -/
def Vec.pop (v : Vec T) : Option T × Vec T :=
  if v.len = 0 then (none, v)
  else (ptrRead v.buf.slots (v.len - 1), { v with len := v.len - 1 })

/-- `Vec::insert` (refactor3.rs:104-117): assert `index <= len`, grow when
full, shift `[index, len)` one slot right with `ptr::copy`, write the
element at `index`, increment `len`. -/
def Vec.insert (v : Vec T) (index : Nat) (elem : T) : Except Fatal (Vec T) :=
  if index ≤ v.len then
    let buf := if v.cap = v.len then v.buf.growNZ else v.buf
    let slots :=
      if index < v.len then ptrCopy buf.slots index (index + 1) (v.len - index)
      else buf.slots
    .ok { buf := { buf with slots := ptrWrite slots index elem }
          len := v.len + 1 }
  else .error .indexOutOfBounds

/-- `Vec::remove` (refactor3.rs:119-129): assert `index < len`, decrement
`len`, read slot `index` out, shift `(index, old len)` one slot left with
`ptr::copy`. -/
def Vec.remove (v : Vec T) (index : Nat) : Except Fatal (Option T × Vec T) :=
  if index < v.len then
    let newLen := v.len - 1
    let result := ptrRead v.buf.slots index
    .ok (result,
      { buf := { v.buf with
                  slots := ptrCopy v.buf.slots (index + 1) index (newLen - index) }
        len := newLen })
  else .error .indexOutOfBounds

/-- The `Deref` view (refactor3.rs:169-176):
`slice::from_raw_parts(self.ptr(), self.len)` — the contents of the `len`
slots starting at the buffer's base, read in index order. -/
def Vec.derefSlice (v : Vec T) : List (Slot T) :=
  (List.range v.len).map (fun i => ptrRead v.buf.slots i)

/-- Pushing a whole list, first element first. -/
def Vec.pushAll (v : Vec T) (xs : List T) : Vec T :=
  xs.foldl Vec.push v

/-- The memory invariant of a live `Vec` (spec §3): `len <= cap`, the block
holds exactly `cap` slots, and the first `len` slots are initialized. -/
structure Vec.WF (v : Vec T) : Prop where
  len_le : v.len ≤ v.cap
  slots_len : v.buf.slots.length = v.cap
  init : ∀ i, i < v.len → (ptrRead v.buf.slots i).isSome

/-- The loop body of `Drop for Vec` (refactor3.rs:161-167):
`while let Some(_) = self.pop() {}`, collecting (as ghost output) the values
whose destructors the loop runs, in the order it pops them. -/
def Vec.dropLoop : Nat → Vec T → List T × Vec T
  | 0, v => ([], v)
  | fuel + 1, v =>
    match v.pop with
    | (none, v') => ([], v')
    | (some x, v') =>
      let q := Vec.dropLoop fuel v'
      (x :: q.1, q.2)

/-- `Drop for Vec`: pop until empty.  `len + 1` loop iterations always
suffice (each successful pop decrements `len`). -/
def Vec.dropSelf (v : Vec T) : List T × Vec T := Vec.dropLoop (v.len + 1) v

/-- `struct RawValIter<T> { start: *const T, end: *const T }`
(refactor3.rs:190-193): a non-owning cursor over the half-open slot range
`[start, endIdx)` of the region `elems` (the slice it was created from, at
base address 0, addresses in element units).  The source's `end` field is
named `endIdx` (`end` is reserved in Lean). -/
structure RawValIter (T : Type) : Type where
  elems : List (Slot T)
  start : Nat
  endIdx : Nat
  deriving Repr

/-- `RawValIter::new(slice)` (refactor3.rs:195-208): `start` is the slice
base, `end` is base + len.  With base address 0 and element-unit addresses,
the zero-sized branch (`ptr as usize + len`), the empty branch (`ptr`) and
the ordinary branch (`ptr.offset(len)`) all give `endIdx = slice.length`. -/
def RawValIter.new (slice : List (Slot T)) : RawValIter T :=
  { elems := slice, start := 0, endIdx := slice.length }

/-- `Iterator::next for RawValIter` (refactor3.rs:212-226): exhausted when
`start == end`, otherwise read the slot at `start` out and advance `start`. -/
def RawValIter.next (it : RawValIter T) : Option T × RawValIter T :=
  if it.start = it.endIdx then (none, it)
  else (ptrRead it.elems it.start, { it with start := it.start + 1 })

/-- `DoubleEndedIterator::next_back for RawValIter` (refactor3.rs:236-251):
exhausted when `start == end`, otherwise decrement `end` first and read the
slot at the new `end` out. -/
def RawValIter.next_back (it : RawValIter T) : Option T × RawValIter T :=
  if it.start = it.endIdx then (none, it)
  else (ptrRead it.elems (it.endIdx - 1), { it with endIdx := it.endIdx - 1 })

/-- `size_hint` (refactor3.rs:228-233): `(end - start) / elem_size` with
element-unit addresses (`elem_size` treated as 1 for zero-sized types). -/
def RawValIter.size_hint (it : RawValIter T) : Nat × Option Nat :=
  (it.endIdx - it.start, some (it.endIdx - it.start))

/-- Run `next` up to `fuel` times, collecting the yielded values in order;
stops early when the cursor reports exhaustion.  This is both the `for` loop
of the `Drop` impls and the generic "call `next` k times" consumer. -/
def RawValIter.consumeFwd : Nat → RawValIter T → List T × RawValIter T
  | 0, it => ([], it)
  | fuel + 1, it =>
    match it.next with
    | (none, it') => ([], it')
    | (some x, it') =>
      let q := RawValIter.consumeFwd fuel it'
      (x :: q.1, q.2)

/-- Run `next_back` up to `fuel` times, collecting the yielded values. -/
def RawValIter.consumeBack : Nat → RawValIter T → List T × RawValIter T
  | 0, it => ([], it)
  | fuel + 1, it =>
    match it.next_back with
    | (none, it') => ([], it')
    | (some x, it') =>
      let q := RawValIter.consumeBack fuel it'
      (x :: q.1, q.2)

/-- The slots the cursor has not yet yielded: `[start, endIdx)`. -/
def RawValIter.unyielded (it : RawValIter T) : List (Slot T) :=
  (it.elems.take it.endIdx).drop it.start

/-- Well-formedness of a cursor: a real range over initialized slots. -/
structure RawValIter.WF (it : RawValIter T) : Prop where
  start_le : it.start ≤ it.endIdx
  end_le : it.endIdx ≤ it.elems.length
  init : ∀ i, it.start ≤ i → i < it.endIdx → (ptrRead it.elems i).isSome

/-- Elements the cursor has yet to yield, `size_hint`'s count. -/
def RawValIter.remaining (it : RawValIter T) : Nat := it.endIdx - it.start

/-- `struct IntoIter<T> { _buf: RawVec<T>, iter: RawValIter<T> }`
(refactor3.rs:256-259): owns the buffer (kept only so its memory is freed)
plus the cursor over the elements still to be yielded. -/
structure IntoIter (T : Type) : Type where
  buf : RawVec T
  iter : RawValIter T

/-- `Iterator::next for IntoIter` (refactor3.rs:261-265): delegates to the
cursor's forward pop. -/
def IntoIter.next (i : IntoIter T) : Option T × IntoIter T :=
  let p := i.iter.next
  (p.1, { i with iter := p.2 })

/-- `DoubleEndedIterator::next_back for IntoIter` (refactor3.rs:267-269). -/
def IntoIter.next_back (i : IntoIter T) : Option T × IntoIter T :=
  let p := i.iter.next_back
  (p.1, { i with iter := p.2 })

/-- `Vec::into_iter` (refactor3.rs:131-142): build the cursor over the
`Deref` slice, move the buffer out, `mem::forget(self)` (the `Vec`'s own
destructor never runs — the function consumes the container). -/
def Vec.into_iter (v : Vec T) : IntoIter T :=
  { buf := v.buf, iter := RawValIter.new v.derefSlice }

/-- `Drop for IntoIter` (refactor3.rs:271-275): `for _ in &mut *self {}` —
consume the cursor forward until exhausted; returns the values whose
destructors the loop runs, in the order it yields them.  Under `WF` the
loop yields exactly `remaining` elements, so that fuel reaches exhaustion. -/
def IntoIter.dropConsumed (i : IntoIter T) : List T :=
  (i.iter.consumeFwd i.iter.remaining).1

/-- `struct Drain<'a, T> { vec: PhantomData<&'a mut Vec<T>>, iter: RawValIter<T> }`
(refactor3.rs:280-283); the phantom borrow marker has no runtime content. -/
structure Drain (T : Type) : Type where
  iter : RawValIter T

/-- `Iterator::next for Drain` (refactor3.rs:285-289): the public `next`
calls the cursor's **back**-popping operation `next_back`. -/
def Drain.next (d : Drain T) : Option T × Drain T :=
  let p := d.iter.next_back
  (p.1, { iter := p.2 })

/-- `DoubleEndedIterator::next_back for Drain` (refactor3.rs:291-293): also
`self.iter.next_back()`. -/
def Drain.next_back (d : Drain T) : Option T × Drain T :=
  let p := d.iter.next_back
  (p.1, { iter := p.2 })

/-- `Vec::drain` (refactor3.rs:144-158): build the cursor over the `Deref`
slice and eagerly set `self.len = 0`; returns the `Drain` and the container
it leaves behind. -/
def Vec.drain (v : Vec T) : Drain T × Vec T :=
  ({ iter := RawValIter.new v.derefSlice }, { v with len := 0 })

/-- `Drop for Drain` (refactor3.rs:295-300): `for _ in &mut self.iter {}` —
pre-drain the cursor forward until exhausted. -/
def Drain.dropConsumed (d : Drain T) : List T :=
  (d.iter.consumeFwd d.iter.remaining).1

/-- `k` successive calls of the `Drain`'s public `next`. -/
def Drain.nextK : Nat → Drain T → List T × Drain T
  | 0, d => ([], d)
  | k + 1, d =>
    match d.next with
    | (none, d') => ([], d')
    | (some x, d') =>
      let q := Drain.nextK k d'
      (x :: q.1, q.2)

/-- `k` successive calls of the `Drain`'s `next_back`. -/
def Drain.nextBackK : Nat → Drain T → List T × Drain T
  | 0, d => ([], d)
  | k + 1, d =>
    match d.next_back with
    | (none, d') => ([], d')
    | (some x, d') =>
      let q := Drain.nextBackK k d'
      (x :: q.1, q.2)

/-- `k` successive calls of the `IntoIter`'s `next`. -/
def IntoIter.nextK : Nat → IntoIter T → List T × IntoIter T
  | 0, i => ([], i)
  | k + 1, i =>
    match i.next with
    | (none, i') => ([], i')
    | (some x, i') =>
      let q := IntoIter.nextK k i'
      (x :: q.1, q.2)


end Refactor3

/-- The four mutation operations both refactors share. -/
inductive MOp (T : Type) : Type
  | push : T → MOp T
  | pop : MOp T
  | insert : Nat → T → MOp T
  | remove : Nat → MOp T

/-- The mutation operations of `refactor3.rs`'s `Vec`, `drain` included. -/
inductive Op (T : Type) : Type
  | push : T → Op T
  | pop : Op T
  | insert : Nat → T → Op T
  | remove : Nat → Op T
  | drain : Op T

namespace Refactor3

/-- Apply one operation; `none` when the operation hits a fatal assertion
(the process aborts in the source, so no further state is reachable). -/
def Vec.applyOp (v : Vec T) : Op T → Option (Vec T)
  | .push x => some (v.push x)
  | .pop => some v.pop.2
  | .insert i x => (v.insert i x).toOption
  | .remove i => (v.remove i).toOption.map (·.2)
  | .drain => some (v.drain).2

/-- Run a sequence of operations from a state. -/
def Vec.runOps (v : Vec T) : List (Op T) → Option (Vec T)
  | [] => some v
  | op :: ops =>
    match v.applyOp op with
    | none => none
    | some v' => v'.runOps ops

/-- Apply one shared mutation operation, recording the operation's returned
value (`pop`/`remove` return elements; `push`/`insert` return nothing). -/
def Vec.stepM (v : Vec T) : MOp T → Option (Option T × Vec T)
  | .push x => some (none, v.push x)
  | .pop => some v.pop
  | .insert i x => (v.insert i x).toOption.map (fun v' => (none, v'))
  | .remove i => (v.remove i).toOption.map (fun p => (p.1, p.2))

/-- Run shared mutation operations, collecting the returned values. -/
def Vec.runM (v : Vec T) : List (MOp T) → Option (List (Option T) × Vec T)
  | [] => some ([], v)
  | op :: ops =>
    match v.stepM op with
    | none => none
    | some (r, v') => (v'.runM ops).map (fun q => (r :: q.1, q.2))

end Refactor3

namespace Refactor2

/-- `pub struct Vec<T> { ptr: NonNull<T>, cap: usize, len: usize }`
(refactor2.rs:41-49), with the pointed-to block's contents as `slots`. -/
structure Vec (T : Type) : Type where
  cap : Nat
  len : Nat
  slots : List (Slot T)
  deriving Repr

/-- `Vec::new` (refactor2.rs:54-57): asserts the element type is not
zero-sized ("We're not ready to handle ZSTs"), then dangling pointer,
`len = 0`, `cap = 0`. -/
def Vec.new (elemSize : Nat) : Except Fatal (Vec T) :=
  if elemSize = 0 then .error .zstUnsupported
  else .ok { cap := 0, len := 0, slots := [] }

/-- `Vec::grow` (refactor2.rs:60-88) on the allocation-succeeds path:
allocate capacity 1 when `cap == 0`, otherwise reallocate to `cap * 2`
(reallocation preserves the old contents). -/
def Vec.grow (v : Vec T) : Vec T :=
  if v.cap = 0 then { v with cap := 1, slots := [none] }
  else
    { v with cap := v.cap * 2
             slots := v.slots ++ List.replicate (v.cap * 2 - v.slots.length) none }

/-- `Vec::push` (refactor2.rs:90-99). -/
def Vec.push (v : Vec T) (elem : T) : Vec T :=
  let g := if v.len = v.cap then v.grow else v
  { g with slots := ptrWrite g.slots v.len elem, len := v.len + 1 }

/-- `Vec::pop` (refactor2.rs:101-110). -/
def Vec.pop (v : Vec T) : Option T × Vec T :=
  if v.len = 0 then (none, v)
  else (ptrRead v.slots (v.len - 1), { v with len := v.len - 1 })

/-- `Vec::insert` (refactor2.rs:112-128). -/
def Vec.insert (v : Vec T) (index : Nat) (elem : T) : Except Fatal (Vec T) :=
  if index ≤ v.len then
    let g := if v.cap = v.len then v.grow else v
    let slots :=
      if index < v.len then ptrCopy g.slots index (index + 1) (v.len - index)
      else g.slots
    .ok { g with slots := ptrWrite slots index elem, len := v.len + 1 }
  else .error .indexOutOfBounds

/-- `Vec::remove` (refactor2.rs:130-141). -/
def Vec.remove (v : Vec T) (index : Nat) : Except Fatal (Option T × Vec T) :=
  if index < v.len then
    let newLen := v.len - 1
    let result := ptrRead v.slots index
    .ok (result,
      { v with len := newLen
               slots := ptrCopy v.slots (index + 1) index (newLen - index) })
  else .error .indexOutOfBounds

/-- The `Deref` view (refactor2.rs:25-32). -/
def Vec.derefSlice (v : Vec T) : List (Slot T) :=
  (List.range v.len).map (fun i => ptrRead v.slots i)

/-- Apply one shared mutation operation, recording its returned value. -/
def Vec.stepM (v : Vec T) : MOp T → Option (Option T × Vec T)
  | .push x => some (none, v.push x)
  | .pop => some v.pop
  | .insert i x => (v.insert i x).toOption.map (fun v' => (none, v'))
  | .remove i => (v.remove i).toOption.map (fun p => (p.1, p.2))

/-- Run shared mutation operations, collecting the returned values. -/
def Vec.runM (v : Vec T) : List (MOp T) → Option (List (Option T) × Vec T)
  | [] => some ([], v)
  | op :: ops =>
    match v.stepM op with
    | none => none
    | some (r, v') => (v'.runM ops).map (fun q => (r :: q.1, q.2))

end Refactor2

/-- The field correspondence between the two refactors' containers:
`refactor3.rs` only moved `ptr`/`cap` into the `RawVec` sub-struct. -/
def toR3 (v : Refactor2.Vec T) : Refactor3.Vec T :=
  { buf := { cap := v.cap, slots := v.slots }, len := v.len }

/-! ## Theorems -/

theorem ptrRead_eq_getElem? (slots : List (Slot T)) (i : Nat) :
    ptrRead slots i = (slots[i]?).getD none := by
  simp [ptrRead, List.getD_eq_getElem?_getD]

theorem ptrRead_of_getElem? (slots : List (Slot T)) (i : Nat) (s : Slot T)
    (h : slots[i]? = some s) : ptrRead slots i = s := by
  simp [ptrRead_eq_getElem?, h]

theorem ptrRead_out_of_range (slots : List (Slot T)) (i : Nat)
    (h : slots.length ≤ i) : ptrRead slots i = none := by
  simp [ptrRead_eq_getElem?, List.getElem?_eq_none h]

theorem ptrWrite_length (slots : List (Slot T)) (i : Nat) (v : T) :
    (ptrWrite slots i v).length = slots.length := by
  simp [ptrWrite]

theorem ptrRead_ptrWrite_self (slots : List (Slot T)) (i : Nat) (v : T)
    (h : i < slots.length) : ptrRead (ptrWrite slots i v) i = some v := by
  simp [ptrRead_eq_getElem?, ptrWrite, List.getElem?_set_self, h,
    List.getElem?_eq_getElem h]

theorem ptrRead_ptrWrite_ne (slots : List (Slot T)) (i j : Nat) (v : T)
    (h : i ≠ j) : ptrRead (ptrWrite slots i v) j = ptrRead slots j := by
  simp [ptrRead_eq_getElem?, ptrWrite, List.getElem?_set_ne h]

theorem ptrCopy_length (slots : List (Slot T)) (src dest count : Nat) :
    (ptrCopy slots src dest count).length = slots.length := by
  simp [ptrCopy]

theorem ptrRead_ptrCopy (slots : List (Slot T)) (src dest count i : Nat)
    (h : i < slots.length) :
    ptrRead (ptrCopy slots src dest count) i =
      if dest ≤ i ∧ i < dest + count then ptrRead slots (src + (i - dest))
      else ptrRead slots i := by
  have hr : (List.range slots.length)[i]? = some i := List.getElem?_range h
  rw [ptrCopy, ptrRead_eq_getElem?, List.getElem?_map, hr]
  rfl

namespace Refactor3

theorem RawVec.grow_eq_growNZ (elemSize : Nat) (rv : RawVec T)
    (h : elemSize ≠ 0) : rv.grow elemSize true = .ok rv.growNZ := by
  simp [RawVec.grow, RawVec.growNZ, h]
  split <;> rfl

theorem RawVec.growNZ_cap (rv : RawVec T) :
    rv.growNZ.cap = if rv.cap = 0 then 1 else 2 * rv.cap := by
  simp [RawVec.growNZ]
  split <;> rfl

theorem RawVec.cap_lt_growNZ_cap (rv : RawVec T) : rv.cap < rv.growNZ.cap := by
  rw [RawVec.growNZ_cap]
  split
  · omega
  · omega

theorem RawVec.growNZ_slots_length (rv : RawVec T)
    (h : rv.slots.length = rv.cap) : rv.growNZ.slots.length = rv.growNZ.cap := by
  simp only [RawVec.growNZ]
  split
  · simp
  · simp only [List.length_append, List.length_replicate]
    omega

theorem RawVec.ptrRead_growNZ (rv : RawVec T) (i : Nat)
    (hlen : rv.slots.length = rv.cap) (hi : i < rv.cap) :
    ptrRead rv.growNZ.slots i = ptrRead rv.slots i := by
  have hi' : i < rv.slots.length := by omega
  simp only [RawVec.growNZ]
  split
  · omega
  · rw [ptrRead_eq_getElem?, ptrRead_eq_getElem?, List.getElem?_append_left hi']

theorem Vec.push_eq (v : Vec T) (e : T) :
    v.push e =
      { buf := { (if v.len = v.cap then v.buf.growNZ else v.buf) with
                  slots := ptrWrite
                    (if v.len = v.cap then v.buf.growNZ else v.buf).slots v.len e }
        len := v.len + 1 } := rfl

theorem Vec.push_len (v : Vec T) (e : T) : (v.push e).len = v.len + 1 := rfl

theorem Vec.push_grown_facts (v : Vec T) (hle : v.len ≤ v.cap)
    (hlen : v.buf.slots.length = v.cap) :
    let buf := if v.len = v.cap then v.buf.growNZ else v.buf
    v.len < buf.cap ∧ buf.slots.length = buf.cap ∧
      ∀ i, i < v.len → ptrRead buf.slots i = ptrRead v.buf.slots i := by
  intro buf
  show v.len < buf.cap ∧ _
  have : buf = if v.len = v.cap then v.buf.growNZ else v.buf := rfl
  rw [this]
  by_cases hfull : v.len = v.cap
  · rw [if_pos hfull]
    have hg := v.buf.cap_lt_growNZ_cap
    exact ⟨by simp only [Vec.cap] at hfull; omega,
      v.buf.growNZ_slots_length hlen,
      fun i hi => v.buf.ptrRead_growNZ i hlen
        (by simp only [Vec.cap] at hfull; omega)⟩
  · rw [if_neg hfull]
    simp only [Vec.cap] at hle hfull
    exact ⟨by omega, hlen, fun i hi => rfl⟩

theorem Vec.push_cap_facts (v : Vec T) (e : T) (hle : v.len ≤ v.cap)
    (hlen : v.buf.slots.length = v.cap) :
    v.len < (v.push e).cap ∧ (v.push e).buf.slots.length = (v.push e).cap := by
  have h := v.push_grown_facts hle hlen
  simp only at h
  rw [Vec.push_eq]
  exact ⟨h.1, by simp only [Vec.cap] at h ⊢; rw [ptrWrite_length]; exact h.2.1⟩

theorem Vec.push_read (v : Vec T) (e : T) (hle : v.len ≤ v.cap)
    (hlen : v.buf.slots.length = v.cap) :
    ∀ i, i < v.len + 1 →
      ptrRead (v.push e).buf.slots i =
        if i = v.len then some e else ptrRead v.buf.slots i := by
  have h := v.push_grown_facts hle hlen
  simp only at h
  obtain ⟨hcap, hsl, hpres⟩ := h
  intro i hi
  rw [Vec.push_eq]
  by_cases hiv : i = v.len
  · subst hiv
    simp only [if_pos rfl]
    exact ptrRead_ptrWrite_self _ _ _ (by omega)
  · rw [if_neg hiv, ptrRead_ptrWrite_ne _ _ _ _ (by omega)]
    exact hpres i (by omega)

theorem Vec.derefSlice_length (v : Vec T) : v.derefSlice.length = v.len := by
  simp [Vec.derefSlice]

theorem Vec.push_derefSlice (v : Vec T) (e : T) (hle : v.len ≤ v.cap)
    (hlen : v.buf.slots.length = v.cap) :
    (v.push e).derefSlice = v.derefSlice ++ [some e] := by
  have hr := v.push_read e hle hlen
  show (List.range (v.len + 1)).map _ = _
  rw [List.range_succ, List.map_append]
  congr 1
  · apply List.map_congr_left
    intro i hi
    rw [List.mem_range] at hi
    rw [hr i (by omega), if_neg (by omega)]
  · simp only [List.map_cons, List.map_nil]
    rw [hr v.len (by omega), if_pos rfl]

theorem Vec.push_WF (v : Vec T) (e : T) (h : v.WF) : (v.push e).WF := by
  obtain ⟨hle, hlen, hinit⟩ := h
  obtain ⟨hcap, hsl⟩ := v.push_cap_facts e hle hlen
  refine ⟨by rw [Vec.push_len]; omega, hsl, fun i hi => ?_⟩
  rw [Vec.push_len] at hi
  rw [v.push_read e hle hlen i hi]
  by_cases hiv : i = v.len
  · simp [hiv]
  · rw [if_neg hiv]
    exact hinit i (by omega)

theorem Vec.pushAll_cons (v : Vec T) (x : T) (xs : List T) :
    v.pushAll (x :: xs) = (v.push x).pushAll xs := rfl

theorem Vec.pushAll_spec (xs : List T) (v : Vec T) (h : v.WF) :
    (v.pushAll xs).WF ∧ (v.pushAll xs).len = v.len + xs.length ∧
      (v.pushAll xs).derefSlice = v.derefSlice ++ xs.map some := by
  induction xs generalizing v with
  | nil => simpa [Vec.pushAll] using h
  | cons x xs ih =>
    rw [Vec.pushAll_cons]
    obtain ⟨hWF, hlen, hds⟩ := ih (v.push x) (v.push_WF x h)
    refine ⟨hWF, by rw [hlen, Vec.push_len, List.length_cons]; omega, ?_⟩
    rw [hds, v.push_derefSlice x h.len_le h.slots_len]
    simp

theorem Vec.new_WF (elemSize : Nat) (h : elemSize ≠ 0) :
    (Vec.new (T := T) elemSize).WF := by
  refine ⟨Nat.zero_le _, ?_, fun i hi => absurd hi (by simp [Vec.new])⟩
  simp [Vec.new, Vec.cap, RawVec.new, h]

theorem Vec.new_derefSlice (elemSize : Nat) :
    (Vec.new (T := T) elemSize).derefSlice = [] := rfl

theorem Vec.push_cap_formula (v : Vec T) (e : T) :
    (v.push e).cap =
      if v.len = v.cap then (if v.cap = 0 then 1 else 2 * v.cap) else v.cap := by
  rw [Vec.push_eq]
  show (if v.len = v.cap then v.buf.growNZ else v.buf).cap = _
  split
  · rw [RawVec.growNZ_cap]; rfl
  · rfl

/-- The doubling-growth capacity invariant carried through a run of pushes. -/
theorem Vec.pushAll_cap_inv (xs : List T) (v : Vec T) (h : v.WF)
    (hc : v.cap = 0 ∧ v.len = 0 ∨ ∃ k, v.cap = 2 ^ k ∧ v.len ≤ 2 ^ k) :
    (v.pushAll xs).cap = 0 ∧ (v.pushAll xs).len = 0 ∨
      ∃ k, (v.pushAll xs).cap = 2 ^ k ∧ (v.pushAll xs).len ≤ 2 ^ k := by
  induction xs generalizing v with
  | nil => exact hc
  | cons x xs ih =>
    rw [Vec.pushAll_cons]
    refine ih (v.push x) (v.push_WF x h) ?_
    right
    rw [Vec.push_len, Vec.push_cap_formula]
    rcases hc with ⟨hc0, hl0⟩ | ⟨k, hck, hlk⟩
    · rw [hl0, hc0, if_pos rfl, if_pos rfl]
      exact ⟨0, rfl, by omega⟩
    · by_cases hfull : v.len = v.cap
      · have h1 : (1 : Nat) ≤ 2 ^ k := Nat.one_le_two_pow
        rw [if_pos hfull, hck, if_neg (by omega : ¬ 2 ^ k = 0)]
        exact ⟨k + 1, by rw [pow_succ]; ring, by
          rw [hfull, hck, pow_succ]; omega⟩
      · rw [if_neg hfull]
        have := h.len_le
        rw [hck] at this ⊢
        exact ⟨k, rfl, by omega⟩

theorem Vec.pop_zero (v : Vec T) (h : v.len = 0) : v.pop = (none, v) := by
  simp [Vec.pop, h]

theorem Vec.pop_succ (v : Vec T) (h : v.len ≠ 0) :
    v.pop = (ptrRead v.buf.slots (v.len - 1), { v with len := v.len - 1 }) := by
  simp [Vec.pop, h]

theorem Vec.pop_WF (v : Vec T) (h : v.WF) : v.pop.2.WF := by
  obtain ⟨hle, hlen, hinit⟩ := h
  by_cases h0 : v.len = 0
  · rw [Vec.pop_zero v h0]
    exact ⟨hle, hlen, hinit⟩
  · rw [Vec.pop_succ v h0]
    show ({ v with len := v.len - 1 } : Vec T).WF
    exact ⟨by simp only [Vec.cap] at hle ⊢; omega, hlen,
      fun i hi => hinit i (by have hi' : i < v.len - 1 := hi; omega)⟩

theorem Vec.derefSlice_succ (v : Vec T) (n : Nat) (h : v.len = n + 1) :
    v.derefSlice =
      ({ v with len := n } : Vec T).derefSlice ++ [ptrRead v.buf.slots n] := by
  show (List.range v.len).map _ = (List.range n).map _ ++ _
  rw [h, List.range_succ, List.map_append]
  rfl

theorem Vec.dropLoop_spec (n : Nat) (v : Vec T) (h : v.WF) (hn : v.len ≤ n) :
    (Vec.dropLoop n v).1.map some = v.derefSlice.reverse ∧
      (Vec.dropLoop n v).2.len = 0 := by
  induction n generalizing v with
  | zero =>
    have h0 : v.len = 0 := by omega
    simp [Vec.dropLoop, Vec.derefSlice, h0]
  | succ n ih =>
    by_cases h0 : v.len = 0
    · rw [Vec.dropLoop]
      rw [Vec.pop_zero v h0]
      simp [Vec.derefSlice, h0]
    · obtain ⟨m, hm⟩ : ∃ m, v.len = m + 1 := ⟨v.len - 1, by omega⟩
      have hread : (ptrRead v.buf.slots m).isSome := h.init m (by omega)
      obtain ⟨x, hx⟩ := Option.isSome_iff_exists.mp hread
      have hpop : v.pop = (some x, { v with len := m }) := by
        rw [Vec.pop_succ v h0, hm]
        simp [hx]
      have hWF' : ({ v with len := m } : Vec T).WF := by
        refine ⟨?_, h.slots_len, fun i hi => h.init i ?_⟩
        · show m ≤ v.buf.cap
          have := h.len_le; simp only [Vec.cap] at this; omega
        · have hi' : i < m := hi
          omega
      obtain ⟨ih1, ih2⟩ := ih { v with len := m } hWF' (by show m ≤ n; omega)
      rw [Vec.dropLoop, hpop]
      refine ⟨?_, ih2⟩
      simp only [List.map_cons, ih1]
      rw [v.derefSlice_succ m hm, List.reverse_append]
      simp [hx]

/-- Shared shape of the grow-if-full step of `push` and `insert`. -/
theorem RawVec.grow_if_facts (b : RawVec T) (n : Nat) (c : Prop) [Decidable c]
    (hiff : c ↔ n = b.cap) (hle : n ≤ b.cap) (hlen : b.slots.length = b.cap) :
    n < (if c then b.growNZ else b).cap ∧
      (if c then b.growNZ else b).slots.length = (if c then b.growNZ else b).cap ∧
      ∀ i, i < n → ptrRead (if c then b.growNZ else b).slots i = ptrRead b.slots i := by
  by_cases hc : c
  · rw [if_pos hc]
    have hg := b.cap_lt_growNZ_cap
    have hn := hiff.mp hc
    exact ⟨by omega, b.growNZ_slots_length hlen,
      fun i hi => b.ptrRead_growNZ i hlen (by omega)⟩
  · rw [if_neg hc]
    have hne : n ≠ b.cap := fun he => hc (hiff.mpr he)
    exact ⟨by omega, hlen, fun i hi => rfl⟩

theorem Vec.insert_spec (v : Vec T) (index : Nat) (e : T)
    (hle : v.len ≤ v.cap) (hlen : v.buf.slots.length = v.cap)
    (hidx : index ≤ v.len) :
    ∃ v', v.insert index e = .ok v' ∧ v'.len = v.len + 1 ∧
      v'.buf.slots.length = v'.cap ∧ v.len + 1 ≤ v'.cap ∧
      (∀ j, j < index → ptrRead v'.buf.slots j = ptrRead v.buf.slots j) ∧
      ptrRead v'.buf.slots index = some e ∧
      (∀ j, index < j → j < v.len + 1 →
        ptrRead v'.buf.slots j = ptrRead v.buf.slots (j - 1)) := by
  obtain ⟨hbcap, hbslen, hbpres⟩ :=
    v.buf.grow_if_facts v.len (v.cap = v.len) (by simp only [Vec.cap]; exact eq_comm)
      hle (by simpa only [Vec.cap] using hlen)
  set b : RawVec T := if v.cap = v.len then v.buf.growNZ else v.buf with hb
  -- contents of the buffer after the conditional right-shift
  set slots1 : List (Slot T) :=
    if index < v.len then ptrCopy b.slots index (index + 1) (v.len - index)
    else b.slots with hs1
  have hs1len : slots1.length = b.slots.length := by
    rw [hs1]; split
    · exact ptrCopy_length _ _ _ _
    · rfl
  have hs1read : ∀ j, j < b.slots.length →
      ptrRead slots1 j =
        if index + 1 ≤ j ∧ j < v.len + 1 then ptrRead b.slots (j - 1)
        else ptrRead b.slots j := by
    intro j hj
    rw [hs1]
    by_cases hsh : index < v.len
    · rw [if_pos hsh, ptrRead_ptrCopy _ _ _ _ _ hj]
      by_cases hrange : index + 1 ≤ j ∧ j < index + 1 + (v.len - index)
      · rw [if_pos hrange, if_pos (by omega)]
        congr 1
        omega
      · rw [if_neg hrange, if_neg (by omega)]
    · rw [if_neg hsh, if_neg (by omega)]
  refine ⟨{ buf := { b with slots := ptrWrite slots1 index e }, len := v.len + 1 },
    ?_, rfl, ?_, ?_, ?_, ?_, ?_⟩
  · rw [Vec.insert, if_pos hidx]
  · show (ptrWrite slots1 index e).length = b.cap
    rw [ptrWrite_length, hs1len, hbslen]
  · show v.len + 1 ≤ b.cap
    omega
  · intro j hjlt
    show ptrRead (ptrWrite slots1 index e) j = _
    rw [ptrRead_ptrWrite_ne _ _ _ _ (by omega),
      hs1read j (by omega), if_neg (by omega)]
    exact hbpres j (by omega)
  · show ptrRead (ptrWrite slots1 index e) index = some e
    exact ptrRead_ptrWrite_self _ _ _ (by omega)
  · intro j hj1 hj2
    show ptrRead (ptrWrite slots1 index e) j = _
    rw [ptrRead_ptrWrite_ne _ _ _ _ (by omega),
      hs1read j (by omega), if_pos (by omega)]
    exact hbpres (j - 1) (by omega)

theorem Vec.insert_WF (v : Vec T) (index : Nat) (e : T) (h : v.WF)
    (hidx : index ≤ v.len) :
    ∃ v', v.insert index e = .ok v' ∧ v'.WF ∧ v'.len = v.len + 1 := by
  obtain ⟨v', hok, hlen', hslen', hcap', hlow, hat, hhigh⟩ :=
    v.insert_spec index e h.len_le h.slots_len hidx
  refine ⟨v', hok, ⟨by omega, hslen', fun i hi => ?_⟩, hlen'⟩
  rw [hlen'] at hi
  rcases Nat.lt_trichotomy i index with hlt | heq | hgt
  · rw [hlow i hlt]
    exact h.init i (by omega)
  · rw [heq, hat]; rfl
  · rw [hhigh i hgt hi]
    exact h.init (i - 1) (by omega)

theorem Vec.remove_spec (v : Vec T) (index : Nat) (hle : v.len ≤ v.cap)
    (hlen : v.buf.slots.length = v.cap) (hidx : index < v.len) :
    ∃ r v', v.remove index = .ok (r, v') ∧
      r = ptrRead v.buf.slots index ∧ v'.len = v.len - 1 ∧
      v'.cap = v.cap ∧ v'.buf.slots.length = v.buf.slots.length ∧
      (∀ j, j < index → ptrRead v'.buf.slots j = ptrRead v.buf.slots j) ∧
      (∀ j, index ≤ j → j < v.len - 1 →
        ptrRead v'.buf.slots j = ptrRead v.buf.slots (j + 1)) := by
  refine ⟨ptrRead v.buf.slots index,
    { buf := { v.buf with
                slots := ptrCopy v.buf.slots (index + 1) index (v.len - 1 - index) }
      len := v.len - 1 },
    ?_, rfl, rfl, rfl, ptrCopy_length _ _ _ _, ?_, ?_⟩
  · rw [Vec.remove, if_pos hidx]
  · intro j hjlt
    show ptrRead (ptrCopy v.buf.slots (index + 1) index (v.len - 1 - index)) j = _
    have hcl : (ptrCopy v.buf.slots (index + 1) index (v.len - 1 - index)).length
        = v.buf.slots.length := ptrCopy_length _ _ _ _
    by_cases hj : j < v.buf.slots.length
    · rw [ptrRead_ptrCopy _ _ _ _ _ hj, if_neg (by omega)]
    · rw [ptrRead_out_of_range _ _ (by omega),
        ptrRead_out_of_range _ _ (by omega)]
  · intro j hj1 hj2
    show ptrRead (ptrCopy v.buf.slots (index + 1) index (v.len - 1 - index)) j = _
    have hj : j < v.buf.slots.length := by
      simp only [Vec.cap] at hlen hle; omega
    rw [ptrRead_ptrCopy _ _ _ _ _ hj, if_pos (by omega)]
    congr 1
    omega

theorem Vec.remove_WF (v : Vec T) (index : Nat) (h : v.WF)
    (hidx : index < v.len) :
    ∃ r v', v.remove index = .ok (r, v') ∧ v'.WF ∧ v'.len = v.len - 1 ∧
      r = ptrRead v.buf.slots index := by
  obtain ⟨r, v', hok, hr, hlen', hcap', hslen', hlow, hhigh⟩ :=
    v.remove_spec index h.len_le h.slots_len hidx
  refine ⟨r, v', hok, ⟨?_, ?_, fun i hi => ?_⟩, hlen', hr⟩
  · have := h.len_le; omega
  · rw [hslen', hcap', h.slots_len]
  · rw [hlen'] at hi
    rcases Nat.lt_or_ge i index with hlt | hge
    · rw [hlow i hlt]
      exact h.init i (by omega)
    · rw [hhigh i hge hi]
      exact h.init (i + 1) (by omega)

theorem RawValIter.consumeFwd_spec (k : Nat) (it : RawValIter T) (h : it.WF)
    (hk : k ≤ it.endIdx - it.start) :
    (RawValIter.consumeFwd k it).1.map some = it.unyielded.take k ∧
      (RawValIter.consumeFwd k it).2 = { it with start := it.start + k } := by
  induction k generalizing it with
  | zero =>
    exact ⟨rfl, rfl⟩
  | succ k ih =>
    have hel := h.end_le
    have hlt : it.start < it.endIdx := by omega
    obtain ⟨x, hx⟩ := Option.isSome_iff_exists.mp (h.init it.start (by omega) hlt)
    have hnext : it.next = (some x, { it with start := it.start + 1 }) := by
      rw [RawValIter.next, if_neg (by omega), hx]
    have hWF' : ({ it with start := it.start + 1 } : RawValIter T).WF :=
      ⟨by show it.start + 1 ≤ it.endIdx; omega, h.end_le,
        fun i hi1 hi2 => h.init i (by have hi1' : it.start + 1 ≤ i := hi1; omega) hi2⟩
    obtain ⟨ih1, ih2⟩ := ih { it with start := it.start + 1 } hWF'
      (by show k ≤ it.endIdx - (it.start + 1); omega)
    rw [RawValIter.consumeFwd, hnext]
    constructor
    · simp only [List.map_cons, ih1]
      have hsu : ({ it with start := it.start + 1 } : RawValIter T).unyielded
          = (it.elems.take it.endIdx).drop (it.start + 1) := rfl
      have hst : it.start < (it.elems.take it.endIdx).length := by
        rw [List.length_take]; omega
      have hhead : it.unyielded
          = some x :: (it.elems.take it.endIdx).drop (it.start + 1) := by
        rw [RawValIter.unyielded, List.drop_eq_getElem_cons hst]
        congr 1
        rw [← hx, ptrRead_eq_getElem?,
          List.getElem?_eq_getElem (by omega : it.start < it.elems.length)]
        simp [List.getElem_take]
      rw [hsu, hhead]
      rfl
    · rw [ih2]
      show ({ it with start := it.start + 1 + k } : RawValIter T)
        = { it with start := it.start + (k + 1) }
      congr 1
      omega

theorem RawValIter.consumeBack_spec (k : Nat) (it : RawValIter T) (h : it.WF)
    (hk : k ≤ it.endIdx - it.start) :
    (RawValIter.consumeBack k it).1.map some
        = ((it.elems.take it.endIdx).drop (it.endIdx - k)).reverse ∧
      (RawValIter.consumeBack k it).2 = { it with endIdx := it.endIdx - k } := by
  induction k generalizing it with
  | zero =>
    refine ⟨?_, rfl⟩
    show ([] : List T).map some = _
    rw [List.drop_eq_nil_of_le (by rw [List.length_take]; omega)]
    rfl
  | succ k ih =>
    have hel := h.end_le
    have hlt : it.start < it.endIdx := by omega
    obtain ⟨x, hx⟩ :=
      Option.isSome_iff_exists.mp (h.init (it.endIdx - 1) (by omega) (by omega))
    have hnext : it.next_back = (some x, { it with endIdx := it.endIdx - 1 }) := by
      rw [RawValIter.next_back, if_neg (by omega), hx]
    have hWF' : ({ it with endIdx := it.endIdx - 1 } : RawValIter T).WF :=
      ⟨by show it.start ≤ it.endIdx - 1; omega,
        by show it.endIdx - 1 ≤ it.elems.length; omega,
        fun i hi1 hi2 => h.init i hi1 (by have hi2' : i < it.endIdx - 1 := hi2; omega)⟩
    obtain ⟨ih1, ih2⟩ := ih { it with endIdx := it.endIdx - 1 } hWF'
      (by show k ≤ it.endIdx - 1 - it.start; omega)
    rw [RawValIter.consumeBack, hnext]
    constructor
    · simp only [List.map_cons, ih1]
      show some x :: ((it.elems.take (it.endIdx - 1)).drop (it.endIdx - 1 - k)).reverse
        = ((it.elems.take it.endIdx).drop (it.endIdx - (k + 1))).reverse
      have he : it.endIdx - 1 < it.elems.length := by omega
      have htk : it.elems.take it.endIdx
          = it.elems.take (it.endIdx - 1) ++ [ptrRead it.elems (it.endIdx - 1)] := by
        conv_lhs => rw [show it.endIdx = (it.endIdx - 1) + 1 from by omega]
        rw [List.take_succ, ptrRead_eq_getElem?, List.getElem?_eq_getElem he]
        rfl
      rw [htk, hx, List.drop_append_of_le_length
        (by rw [List.length_take]; omega), List.reverse_append]
      have hidx : it.endIdx - (k + 1) = it.endIdx - 1 - k := by omega
      rw [hidx]
      rfl
    · rw [ih2]
      show ({ it with endIdx := it.endIdx - 1 - k } : RawValIter T)
        = { it with endIdx := it.endIdx - (k + 1) }
      congr 1
      omega

theorem Drain.next_back_eq_next (d : Drain T) : d.next_back = d.next := rfl

theorem Drain.nextK_eq_consumeBack (k : Nat) (d : Drain T) :
    Drain.nextK k d
      = ((d.iter.consumeBack k).1, { iter := (d.iter.consumeBack k).2 }) := by
  induction k generalizing d with
  | zero => rfl
  | succ k ih =>
    rw [Drain.nextK, RawValIter.consumeBack]
    show (match d.next with
      | (none, d') => ([], d')
      | (some x, d') => ((x :: (Drain.nextK k d').1, (Drain.nextK k d').2) : List T × Drain T)) = _
    rw [Drain.next]
    rcases hnb : d.iter.next_back with ⟨r, it'⟩
    cases r with
    | none => simp
    | some x => simp [ih]

theorem Drain.nextBackK_eq_nextK (k : Nat) (d : Drain T) :
    Drain.nextBackK k d = Drain.nextK k d := by
  induction k generalizing d with
  | zero => rfl
  | succ k ih =>
    rw [Drain.nextBackK, Drain.nextK, Drain.next_back_eq_next]
    rcases d.next with ⟨r, d'⟩
    cases r with
    | none => rfl
    | some x => simp [ih]

theorem IntoIter.nextK_eq_consumeFwd (k : Nat) (i : IntoIter T) :
    IntoIter.nextK k i
      = ((i.iter.consumeFwd k).1, { i with iter := (i.iter.consumeFwd k).2 }) := by
  induction k generalizing i with
  | zero => rfl
  | succ k ih =>
    rw [IntoIter.nextK, RawValIter.consumeFwd]
    show (match i.next with
      | (none, i') => ([], i')
      | (some x, i') =>
          ((x :: (IntoIter.nextK k i').1, (IntoIter.nextK k i').2) : List T × IntoIter T)) = _
    rw [IntoIter.next]
    rcases hn : i.iter.next with ⟨r, it'⟩
    cases r with
    | none => simp
    | some x => simp [ih]

theorem Vec.derefSlice_read (v : Vec T) (i : Nat) (hi : i < v.len) :
    ptrRead v.derefSlice i = ptrRead v.buf.slots i := by
  rw [Vec.derefSlice, ptrRead_eq_getElem?, List.getElem?_map,
    List.getElem?_range hi]
  rfl

theorem Vec.newIter_WF (v : Vec T) (h : v.WF) :
    (RawValIter.new v.derefSlice).WF := by
  refine ⟨Nat.zero_le _, le_refl _, fun i hi1 hi2 => ?_⟩
  have hi : i < v.len := by
    have : i < v.derefSlice.length := hi2
    rwa [Vec.derefSlice_length] at this
  rw [show (RawValIter.new v.derefSlice).elems = v.derefSlice from rfl,
    v.derefSlice_read i hi]
  exact h.init i hi

theorem RawValIter.new_unyielded (s : List (Slot T)) :
    (RawValIter.new s).unyielded = s := by
  simp [RawValIter.new, RawValIter.unyielded]

theorem RawValIter.new_remaining (s : List (Slot T)) :
    (RawValIter.new s).remaining = s.length := by
  simp [RawValIter.new, RawValIter.remaining]

end Refactor3

namespace Refactor3

theorem RawValIter.consumeFwd_all (it : RawValIter T) (h : it.WF) :
    (it.consumeFwd it.remaining).1.map some = it.unyielded := by
  obtain ⟨h1, _⟩ := RawValIter.consumeFwd_spec it.remaining it h (le_refl _)
  rw [h1]
  apply List.take_of_length_le
  rw [RawValIter.unyielded, List.length_drop, List.length_take]
  have := h.end_le
  rw [RawValIter.remaining]
  omega

theorem Vec.drain_WF (v : Vec T) (h : v.WF) : (v.drain).2.WF := by
  refine ⟨Nat.zero_le _, h.slots_len, fun i hi => ?_⟩
  exact absurd (show i < 0 from hi) (by omega)

theorem Vec.applyOp_WF (v : Vec T) (op : Op T) (h : v.WF) :
    ∀ v', v.applyOp op = some v' → v'.WF := by
  intro v' hv
  cases op with
  | push x =>
    simp only [Vec.applyOp, Option.some_inj] at hv
    exact hv ▸ v.push_WF x h
  | pop =>
    simp only [Vec.applyOp, Option.some_inj] at hv
    exact hv ▸ v.pop_WF h
  | insert i x =>
    by_cases hi : i ≤ v.len
    · obtain ⟨v'', hok, hWF'', _⟩ := v.insert_WF i x h hi
      simp only [Vec.applyOp, hok, Except.toOption, Option.some_inj] at hv
      exact hv ▸ hWF''
    · have he : v.insert i x = .error .indexOutOfBounds := by
        rw [Vec.insert, if_neg hi]
      simp [Vec.applyOp, he, Except.toOption] at hv
  | remove i =>
    by_cases hi : i < v.len
    · obtain ⟨r, v'', hok, hWF'', _, _⟩ := v.remove_WF i h hi
      simp only [Vec.applyOp, hok, Except.toOption, Option.map,
        Option.some_inj] at hv
      exact hv ▸ hWF''
    · have he : v.remove i = .error .indexOutOfBounds := by
        rw [Vec.remove, if_neg hi]
      simp [Vec.applyOp, he, Except.toOption] at hv
  | drain =>
    simp only [Vec.applyOp, Option.some_inj] at hv
    exact hv ▸ v.drain_WF h

theorem Vec.runOps_WF (ops : List (Op T)) (v : Vec T) (h : v.WF) :
    ∀ v', v.runOps ops = some v' → v'.WF := by
  induction ops generalizing v with
  | nil =>
    intro v' hv
    simp only [Vec.runOps, Option.some_inj] at hv
    exact hv ▸ h
  | cons op ops ih =>
    intro v' hv
    rw [Vec.runOps] at hv
    rcases ha : v.applyOp op with _ | v₁
    · rw [ha] at hv; exact absurd hv (by simp)
    · rw [ha] at hv
      exact ih v₁ (v.applyOp_WF op h v₁ ha) v' hv

end Refactor3

theorem grow_toRaw (v : Refactor2.Vec T) :
    v.grow = { cap := (Refactor3.RawVec.growNZ ⟨v.cap, v.slots⟩).cap
               len := v.len
               slots := (Refactor3.RawVec.growNZ ⟨v.cap, v.slots⟩).slots } := by
  by_cases h0 : v.cap = 0 <;>
    simp [Refactor2.Vec.grow, Refactor3.RawVec.growNZ, h0, Nat.mul_comm]

theorem toR3_push (v : Refactor2.Vec T) (x : T) :
    toR3 (v.push x) = (toR3 v).push x := by
  rw [Refactor2.Vec.push, Refactor3.Vec.push, grow_toRaw]
  by_cases hc : v.len = v.cap
  · have hc' : (toR3 v).len = (toR3 v).cap := hc
    rw [if_pos hc, if_pos hc']
    rfl
  · have hc' : ¬ (toR3 v).len = (toR3 v).cap := hc
    rw [if_neg hc, if_neg hc']
    rfl

theorem toR3_pop (v : Refactor2.Vec T) :
    ((v.pop).1, toR3 (v.pop).2) = (toR3 v).pop := by
  rw [Refactor2.Vec.pop, Refactor3.Vec.pop]
  by_cases h0 : v.len = 0
  · have h0' : (toR3 v).len = 0 := h0
    rw [if_pos h0, if_pos h0']
  · have h0' : ¬ (toR3 v).len = 0 := h0
    rw [if_neg h0, if_neg h0']
    rfl

theorem toR3_insert (v : Refactor2.Vec T) (i : Nat) (x : T) :
    (v.insert i x).map toR3 = (toR3 v).insert i x := by
  rw [Refactor2.Vec.insert, Refactor3.Vec.insert, grow_toRaw]
  by_cases hi : i ≤ v.len
  · have hi' : i ≤ (toR3 v).len := hi
    rw [if_pos hi, if_pos hi']
    by_cases hc : v.cap = v.len
    · have hc' : (toR3 v).cap = (toR3 v).len := hc
      rw [if_pos hc, if_pos hc']
      rfl
    · have hc' : ¬ (toR3 v).cap = (toR3 v).len := hc
      rw [if_neg hc, if_neg hc']
      rfl
  · have hi' : ¬ i ≤ (toR3 v).len := hi
    rw [if_neg hi, if_neg hi']
    rfl

theorem toR3_remove (v : Refactor2.Vec T) (i : Nat) :
    (v.remove i).map (fun p => (p.1, toR3 p.2)) = (toR3 v).remove i := by
  rw [Refactor2.Vec.remove, Refactor3.Vec.remove]
  by_cases hi : i < v.len
  · have hi' : i < (toR3 v).len := hi
    rw [if_pos hi, if_pos hi']
    rfl
  · have hi' : ¬ i < (toR3 v).len := hi
    rw [if_neg hi, if_neg hi']
    rfl

theorem toR3_stepM (v : Refactor2.Vec T) (op : MOp T) :
    (v.stepM op).map (fun p => (p.1, toR3 p.2)) = (toR3 v).stepM op := by
  cases op with
  | push x =>
    show some ((none : Option T), toR3 (v.push x)) = some (none, (toR3 v).push x)
    rw [toR3_push]
  | pop =>
    show some ((v.pop).1, toR3 (v.pop).2) = some (toR3 v).pop
    rw [toR3_pop]
  | insert i x =>
    have h := toR3_insert v i x
    simp only [Refactor2.Vec.stepM, Refactor3.Vec.stepM, ← h]
    rcases v.insert i x with e | v' <;> rfl
  | remove i =>
    have h := toR3_remove v i
    simp only [Refactor2.Vec.stepM, Refactor3.Vec.stepM, ← h]
    rcases v.remove i with e | ⟨r, v'⟩ <;> rfl

theorem toR3_runM (ops : List (MOp T)) (v : Refactor2.Vec T) :
    (v.runM ops).map (fun q => (q.1, toR3 q.2)) = (toR3 v).runM ops := by
  induction ops generalizing v with
  | nil => rfl
  | cons op ops ih =>
    rw [Refactor2.Vec.runM, Refactor3.Vec.runM, ← toR3_stepM]
    rcases hs : v.stepM op with _ | ⟨r, v'⟩
    · rfl
    · show Option.map (fun q => (q.1, toR3 q.2))
          (Option.map (fun q => (r :: q.1, q.2)) (v'.runM ops))
        = Option.map (fun q => (r :: q.1, q.2)) ((toR3 v').runM ops)
      rw [← ih v']
      rcases v'.runM ops with _ | ⟨tr, vf⟩ <;> rfl

/-! ## Claims -/

/-- **C1**: for every sequence of `push` calls starting from the empty
container (non-zero-sized element type, as the spec's operations require),
reading the elements back in index order through the `Deref` view yields
exactly the pushed values in push order. -/
theorem claim1_push_readback (elemSize : Nat) (h : elemSize ≠ 0) (xs : List T) :
    ((Refactor3.Vec.new (T := T) elemSize).pushAll xs).derefSlice
      = xs.map some := by
  obtain ⟨_, _, hds⟩ :=
    Refactor3.Vec.pushAll_spec xs _ (Refactor3.Vec.new_WF elemSize h)
  rw [hds, Refactor3.Vec.new_derefSlice]
  rfl

/-- Witness for C1: pushing `[3, 1, 4]` reads back as `[3, 1, 4]`. -/
theorem claim1_push_readback_witness :
    ((Refactor3.Vec.new (T := Nat) 8).pushAll [3, 1, 4]).derefSlice
      = [some 3, some 1, some 4] :=
  claim1_push_readback 8 (by decide) [3, 1, 4]

/-- **C4**: after `n` pushes on a container created empty, `len = n`, and
`cap = 0` when `n = 0`, otherwise `cap` is a power of two with `n ≤ cap`
(doubling growth starting at capacity 1). -/
theorem claim4_len_cap_after_pushes (elemSize : Nat) (h : elemSize ≠ 0)
    (xs : List T) :
    ((Refactor3.Vec.new (T := T) elemSize).pushAll xs).len = xs.length ∧
    (xs.length = 0 → ((Refactor3.Vec.new (T := T) elemSize).pushAll xs).cap = 0) ∧
    (xs.length ≠ 0 → ∃ k,
      ((Refactor3.Vec.new (T := T) elemSize).pushAll xs).cap = 2 ^ k ∧
        xs.length ≤ ((Refactor3.Vec.new (T := T) elemSize).pushAll xs).cap) := by
  obtain ⟨_, hlen, _⟩ :=
    Refactor3.Vec.pushAll_spec xs _ (Refactor3.Vec.new_WF elemSize h)
  have hlen' : ((Refactor3.Vec.new (T := T) elemSize).pushAll xs).len
      = xs.length := by
    rw [hlen]
    exact Nat.zero_add _
  have hnewcap : (Refactor3.Vec.new (T := T) elemSize).cap = 0 := by
    simp [Refactor3.Vec.new, Refactor3.Vec.cap, Refactor3.RawVec.new, h]
  refine ⟨hlen', fun h0 => ?_, fun h0 => ?_⟩
  · have hxs : xs = [] := List.length_eq_zero.mp h0
    subst hxs
    exact hnewcap
  · have hinv := Refactor3.Vec.pushAll_cap_inv xs _
      (Refactor3.Vec.new_WF elemSize h) (Or.inl ⟨hnewcap, rfl⟩)
    rcases hinv with ⟨_, hl0⟩ | ⟨k, hck, hlk⟩
    · rw [hlen'] at hl0
      exact absurd hl0 h0
    · rw [hlen'] at hlk
      exact ⟨k, hck, by rw [hck]; exact hlk⟩

/-- Witness for C4: five pushes give length 5 and capacity `8 = 2 ^ 3`. -/
theorem claim4_len_cap_after_pushes_witness :
    ((Refactor3.Vec.new (T := Nat) 8).pushAll [0, 1, 2, 3, 4]).len = 5 ∧
    ([0, 1, 2, 3, 4].length ≠ 0 → ∃ k,
      ((Refactor3.Vec.new (T := Nat) 8).pushAll [0, 1, 2, 3, 4]).cap = 2 ^ k ∧
        [0, 1, 2, 3, 4].length
          ≤ ((Refactor3.Vec.new (T := Nat) 8).pushAll [0, 1, 2, 3, 4]).cap) :=
  ⟨(claim4_len_cap_after_pushes 8 (by decide) [0, 1, 2, 3, 4]).1,
    (claim4_len_cap_after_pushes 8 (by decide) [0, 1, 2, 3, 4]).2.2⟩

/-- **C5**: for every well-formed container state and index with
`index ≤ len`, `insert index x` followed by `remove index` succeeds,
returns `x`, and restores the prior length and element order. -/
theorem claim5_insert_remove_roundtrip (v : Refactor3.Vec T) (h : v.WF)
    (index : Nat) (hidx : index ≤ v.len) (x : T) :
    ∃ v₁ v₂, v.insert index x = .ok v₁ ∧ v₁.remove index = .ok (some x, v₂) ∧
      v₂.len = v.len ∧ v₂.derefSlice = v.derefSlice := by
  obtain ⟨v₁, hok, hlen₁, hslen₁, hcap₁, hlow, hat, hhigh⟩ :=
    v.insert_spec index x h.len_le h.slots_len hidx
  obtain ⟨r, v₂, hok₂, hr, hlen₂, hcap₂, hslen₂, hlow₂, hhigh₂⟩ :=
    v₁.remove_spec index (by rw [hlen₁]; exact hcap₁) hslen₁
      (by rw [hlen₁]; omega)
  have hrx : r = some x := by rw [hr, hat]
  have hlen₂' : v₂.len = v.len := by omega
  have hds : v₂.derefSlice = v.derefSlice := by
    rw [Refactor3.Vec.derefSlice, Refactor3.Vec.derefSlice, hlen₂']
    apply List.map_congr_left
    intro j hj
    rw [List.mem_range] at hj
    rcases Nat.lt_or_ge j index with hlt | hge
    · rw [hlow₂ j hlt, hlow j hlt]
    · rw [hhigh₂ j hge (by omega), hhigh (j + 1) (by omega) (by omega)]
      congr 1
  exact ⟨v₁, v₂, hok, by rw [hok₂, hrx], hlen₂', hds⟩

/-- Witness for C5: inserting 9 at index 1 of `[1, 2]` and removing it again
returns 9 and restores `[1, 2]`. -/
theorem claim5_insert_remove_roundtrip_witness :
    ∃ v₁ v₂, ((Refactor3.Vec.new (T := Nat) 8).pushAll [1, 2]).insert 1 9
        = .ok v₁ ∧
      v₁.remove 1 = .ok (some 9, v₂) ∧
      v₂.len = ((Refactor3.Vec.new (T := Nat) 8).pushAll [1, 2]).len ∧
      v₂.derefSlice = ((Refactor3.Vec.new (T := Nat) 8).pushAll [1, 2]).derefSlice :=
  claim5_insert_remove_roundtrip _
    (Refactor3.Vec.pushAll_spec [1, 2] _
      (Refactor3.Vec.new_WF 8 (by decide))).1
    1 (by decide) 9

/-- **C6**: `len ≤ cap` holds in every state reachable from the empty
container by `push`, `pop`, `insert`, `remove` and `drain` operations. -/
theorem claim6_len_le_cap (elemSize : Nat) (h : elemSize ≠ 0)
    (ops : List (Op T)) (v : Refactor3.Vec T)
    (hrun : (Refactor3.Vec.new (T := T) elemSize).runOps ops = some v) :
    v.len ≤ v.cap :=
  (Refactor3.Vec.runOps_WF ops _ (Refactor3.Vec.new_WF elemSize h) v hrun).len_le

/-- Witness for C6 on a concrete operation sequence. -/
theorem claim6_len_le_cap_witness :
    ∃ v : Refactor3.Vec Nat,
      (Refactor3.Vec.new (T := Nat) 8).runOps
          [.push 1, .push 2, .insert 1 9, .remove 0, .pop, .push 7, .drain]
        = some v ∧ v.len ≤ v.cap := by
  have hrun : (Refactor3.Vec.new (T := Nat) 8).runOps
      [.push 1, .push 2, .insert 1 9, .remove 0, .pop, .push 7, .drain]
      = some ⟨⟨4, [some 9, some 7, some 2, none]⟩, 0⟩ := rfl
  exact ⟨_, hrun, claim6_len_le_cap 8 (by decide) _ _ hrun⟩

/-- **C7**: `insert` requires `index ≤ len` and hits the fatal
"index out of bounds" assertion (never a recoverable return) for
`index > len`; `remove` requires `index < len` and hits the assertion for
`index ≥ len`; under the preconditions both succeed. -/
theorem claim7_bounds_assertions (v : Refactor3.Vec T) (i : Nat) (x : T) :
    (i ≤ v.len → ∃ v', v.insert i x = .ok v') ∧
    (v.len < i → v.insert i x = .error .indexOutOfBounds) ∧
    (i < v.len → ∃ r v', v.remove i = .ok (r, v')) ∧
    (v.len ≤ i → v.remove i = .error .indexOutOfBounds) := by
  refine ⟨fun hi => ?_, fun hi => ?_, fun hi => ?_, fun hi => ?_⟩
  · rw [Refactor3.Vec.insert, if_pos hi]
    exact ⟨_, rfl⟩
  · rw [Refactor3.Vec.insert, if_neg (by omega)]
  · rw [Refactor3.Vec.remove, if_pos hi]
    exact ⟨_, _, rfl⟩
  · rw [Refactor3.Vec.remove, if_neg (by omega)]

/-- Witness for C7 on a length-1 container. -/
theorem claim7_bounds_assertions_witness :
    (∃ v', ((Refactor3.Vec.new (T := Nat) 8).pushAll [5]).insert 1 6 = .ok v') ∧
    ((Refactor3.Vec.new (T := Nat) 8).pushAll [5]).insert 2 6
      = .error .indexOutOfBounds ∧
    (∃ r v', ((Refactor3.Vec.new (T := Nat) 8).pushAll [5]).remove 0
      = .ok (r, v')) ∧
    ((Refactor3.Vec.new (T := Nat) 8).pushAll [5]).remove 1
      = .error .indexOutOfBounds := by
  have hlen : ((Refactor3.Vec.new (T := Nat) 8).pushAll [5]).len = 1 := rfl
  exact ⟨(claim7_bounds_assertions _ 1 6).1 (by rw [hlen]),
    (claim7_bounds_assertions _ 2 6).2.1 (by rw [hlen]; omega),
    (claim7_bounds_assertions _ 0 6).2.2.1 (by rw [hlen]; omega),
    (claim7_bounds_assertions _ 1 6).2.2.2 (by rw [hlen])⟩

/-- **C8**: destroying a well-formed container runs each live element's
destructor exactly once, in reverse index order, by popping until empty
(the buffer release is `RawVec`'s separate `Drop`, which runs after this
loop). -/
theorem claim8_drop_reverse_order (v : Refactor3.Vec T) (h : v.WF) :
    (v.dropSelf).1.map some = v.derefSlice.reverse ∧ (v.dropSelf).2.len = 0 :=
  Refactor3.Vec.dropLoop_spec (v.len + 1) v h (by omega)

/-- Witness for C8: dropping `[1, 2, 3]` destroys `3, 2, 1` in that order. -/
theorem claim8_drop_reverse_order_witness :
    (((Refactor3.Vec.new (T := Nat) 8).pushAll [1, 2, 3]).dropSelf).1.map some
        = ((Refactor3.Vec.new (T := Nat) 8).pushAll [1, 2, 3]).derefSlice.reverse ∧
      (((Refactor3.Vec.new (T := Nat) 8).pushAll [1, 2, 3]).dropSelf).2.len = 0 :=
  claim8_drop_reverse_order _
    (Refactor3.Vec.pushAll_spec [1, 2, 3] _
      (Refactor3.Vec.new_WF 8 (by decide))).1

/-- **C9**: for a zero-sized element type (`elemSize = 0`) the buffer is
created with capacity `usize::MAX` and `grow` can never allocate: reaching
it is the unconditional fatal "capacity overflow" assertion, which is
distinct from the allocator-failure (`oom`) fatal path whatever the
allocator would have answered. -/
theorem claim9_zst_capacity (allocOk : Bool) (rv : Refactor3.RawVec T) :
    (Refactor3.RawVec.new (T := T) 0).cap = USIZE_MAX ∧
    Refactor3.RawVec.grow 0 allocOk rv = .error .capacityOverflow ∧
    Refactor3.RawVec.grow 0 allocOk rv ≠ .error .oom ∧
    (∀ rv', Refactor3.RawVec.grow 0 allocOk rv ≠ .ok rv') := by
  refine ⟨by simp [Refactor3.RawVec.new], ?_, ?_, fun rv' => ?_⟩
  · rw [Refactor3.RawVec.grow, if_pos rfl]
  · rw [Refactor3.RawVec.grow, if_pos rfl]
    simp
  · rw [Refactor3.RawVec.grow, if_pos rfl]
    simp

/-- Witness for C9 at a concrete buffer state. -/
theorem claim9_zst_capacity_witness :
    (Refactor3.RawVec.new (T := Nat) 0).cap = USIZE_MAX ∧
    Refactor3.RawVec.grow (T := Nat) 0 true ⟨USIZE_MAX, []⟩
      = .error .capacityOverflow :=
  ⟨(claim9_zst_capacity (T := Nat) true ⟨USIZE_MAX, []⟩).1,
    (claim9_zst_capacity (T := Nat) true ⟨USIZE_MAX, []⟩).2.1⟩

/-- **C2**: the `Drain`'s public `next` is the cursor's back-pop, so forward
consumption of a drain yields the container's elements in reverse index
order, and consuming only via `next` or only via `next_back` produces the
same reverse sequence. -/
theorem claim2_drain_yields_reverse (v : Refactor3.Vec T) (h : v.WF) :
    (∀ d : Refactor3.Drain T,
      d.next = ((d.iter.next_back).1, ⟨(d.iter.next_back).2⟩)) ∧
    (Refactor3.Drain.nextK v.len (v.drain).1).1.map some
      = v.derefSlice.reverse ∧
    (Refactor3.Drain.nextBackK v.len (v.drain).1).1
      = (Refactor3.Drain.nextK v.len (v.drain).1).1 := by
  refine ⟨fun d => rfl, ?_, by rw [Refactor3.Drain.nextBackK_eq_nextK]⟩
  rw [Refactor3.Drain.nextK_eq_consumeBack]
  have hWFit := v.newIter_WF h
  have hk : v.len ≤ (Refactor3.RawValIter.new v.derefSlice).endIdx
      - (Refactor3.RawValIter.new v.derefSlice).start := by
    show v.len ≤ v.derefSlice.length - 0
    rw [Refactor3.Vec.derefSlice_length]
    omega
  obtain ⟨h1, _⟩ := Refactor3.RawValIter.consumeBack_spec v.len _ hWFit hk
  show ((Refactor3.RawValIter.new v.derefSlice).consumeBack v.len).1.map some
    = v.derefSlice.reverse
  rw [h1]
  show ((v.derefSlice.take v.derefSlice.length).drop
      (v.derefSlice.length - v.len)).reverse = v.derefSlice.reverse
  rw [List.take_length, Refactor3.Vec.derefSlice_length, Nat.sub_self,
    List.drop_zero]

/-- Witness for C2: draining `[1, 2, 3]` via `next` yields `[3, 2, 1]`. -/
theorem claim2_drain_yields_reverse_witness :
    (Refactor3.Drain.nextK
        ((Refactor3.Vec.new (T := Nat) 8).pushAll [1, 2, 3]).len
        (((Refactor3.Vec.new (T := Nat) 8).pushAll [1, 2, 3]).drain).1).1.map some
      = ((Refactor3.Vec.new (T := Nat) 8).pushAll [1, 2, 3]).derefSlice.reverse :=
  (claim2_drain_yields_reverse _
    (Refactor3.Vec.pushAll_spec [1, 2, 3] _
      (Refactor3.Vec.new_WF 8 (by decide))).1).2.1

/-- **C3**: dropping an unexhausted iterator forces an implicit drain: after
`k ≤ len` yields, the `IntoIter` drop handler consumes exactly the
not-yet-yielded elements, and likewise for `Drain` (whose yields come from
the tail); `drain` itself zeroes the container's length eagerly, so in
particular abandoning a drain after zero yields leaves length 0 with every
element consumed exactly once. -/
theorem claim3_iterator_drop_consumes_rest (v : Refactor3.Vec T) (h : v.WF)
    (k : Nat) (hk : k ≤ v.len) :
    (v.drain).2.len = 0 ∧
    ((Refactor3.IntoIter.nextK k v.into_iter).1.map some
        = v.derefSlice.take k ∧
      ((Refactor3.IntoIter.nextK k v.into_iter).2.dropConsumed).map some
        = v.derefSlice.drop k) ∧
    ((Refactor3.Drain.nextK k (v.drain).1).2.dropConsumed).map some
      = v.derefSlice.take (v.len - k) := by
  have hWFit := v.newIter_WF h
  have hlenl := v.derefSlice_length
  have hinitl : ∀ i, i < v.derefSlice.length → (ptrRead v.derefSlice i).isSome := by
    intro i hi
    rw [v.derefSlice_read i (by omega)]
    exact h.init i (by omega)
  have hk' : k ≤ (Refactor3.RawValIter.new v.derefSlice).endIdx
      - (Refactor3.RawValIter.new v.derefSlice).start := by
    show k ≤ v.derefSlice.length - 0
    omega
  refine ⟨rfl, ⟨?_, ?_⟩, ?_⟩
  · rw [Refactor3.IntoIter.nextK_eq_consumeFwd]
    show ((Refactor3.RawValIter.new v.derefSlice).consumeFwd k).1.map some = _
    obtain ⟨h1, _⟩ := Refactor3.RawValIter.consumeFwd_spec k _ hWFit hk'
    rw [h1, Refactor3.RawValIter.new_unyielded]
  · rw [Refactor3.IntoIter.nextK_eq_consumeFwd]
    obtain ⟨_, h2⟩ := Refactor3.RawValIter.consumeFwd_spec k _ hWFit hk'
    show ((((Refactor3.RawValIter.new v.derefSlice).consumeFwd k).2).consumeFwd
        (((Refactor3.RawValIter.new v.derefSlice).consumeFwd k).2).remaining).1.map some
      = v.derefSlice.drop k
    rw [h2]
    have hWF₁ : ({ Refactor3.RawValIter.new v.derefSlice with
        start := (Refactor3.RawValIter.new v.derefSlice).start + k }
          : Refactor3.RawValIter T).WF := by
      refine ⟨?_, ?_, fun i hi1 hi2 => hinitl i ?_⟩
      · show 0 + k ≤ v.derefSlice.length
        omega
      · show v.derefSlice.length ≤ v.derefSlice.length
        exact le_refl _
      · exact hi2
    rw [Refactor3.RawValIter.consumeFwd_all _ hWF₁]
    show (v.derefSlice.take v.derefSlice.length).drop (0 + k) = v.derefSlice.drop k
    rw [List.take_length, Nat.zero_add]
  · rw [Refactor3.Drain.nextK_eq_consumeBack]
    obtain ⟨_, h2⟩ := Refactor3.RawValIter.consumeBack_spec k _ hWFit hk'
    show ((((Refactor3.RawValIter.new v.derefSlice).consumeBack k).2).consumeFwd
        (((Refactor3.RawValIter.new v.derefSlice).consumeBack k).2).remaining).1.map some
      = v.derefSlice.take (v.len - k)
    rw [h2]
    have hWF₂ : ({ Refactor3.RawValIter.new v.derefSlice with
        endIdx := (Refactor3.RawValIter.new v.derefSlice).endIdx - k }
          : Refactor3.RawValIter T).WF := by
      refine ⟨?_, ?_, fun i hi1 hi2 => hinitl i ?_⟩
      · show 0 ≤ v.derefSlice.length - k
        exact Nat.zero_le _
      · show v.derefSlice.length - k ≤ v.derefSlice.length
        omega
      · have hi2' : i < v.derefSlice.length - k := hi2
        omega
    rw [Refactor3.RawValIter.consumeFwd_all _ hWF₂]
    show (v.derefSlice.take (v.derefSlice.length - k)).drop 0
      = v.derefSlice.take (v.len - k)
    rw [List.drop_zero, hlenl]

/-- Witness for C3: draining `[1, 2, 3]` and dropping after zero yields
leaves length 0 and the drop handler consumes all three elements. -/
theorem claim3_iterator_drop_consumes_rest_witness :
    ((((Refactor3.Vec.new (T := Nat) 8).pushAll [1, 2, 3]).drain).2.len = 0) ∧
    (((Refactor3.Drain.nextK 0
          ((((Refactor3.Vec.new (T := Nat) 8).pushAll [1, 2, 3]).drain)).1).2.dropConsumed).map some
      = ((Refactor3.Vec.new (T := Nat) 8).pushAll [1, 2, 3]).derefSlice.take
          (((Refactor3.Vec.new (T := Nat) 8).pushAll [1, 2, 3]).len - 0)) :=
  ⟨(claim3_iterator_drop_consumes_rest _
      (Refactor3.Vec.pushAll_spec [1, 2, 3] _
        (Refactor3.Vec.new_WF 8 (by decide))).1 0 (Nat.zero_le _)).1,
    (claim3_iterator_drop_consumes_rest _
      (Refactor3.Vec.pushAll_spec [1, 2, 3] _
        (Refactor3.Vec.new_WF 8 (by decide))).1 0 (Nat.zero_le _)).2.2⟩

/-- **C10**: for every non-zero-sized element type and every sequence of
`push`/`pop`/`insert`/`remove` operations from the empty container, the two
refactors are behaviorally equivalent: both abort at the same point or both
succeed with identical returned values, length, capacity and element
sequence. -/
theorem claim10_refactor_equiv (elemSize : Nat) (h : elemSize ≠ 0)
    (ops : List (MOp T)) :
    ∃ v0 : Refactor2.Vec T, Refactor2.Vec.new (T := T) elemSize = .ok v0 ∧
      ((v0.runM ops = none ∧
          (Refactor3.Vec.new (T := T) elemSize).runM ops = none) ∨
        ∃ tr v2 v3, v0.runM ops = some (tr, v2) ∧
          (Refactor3.Vec.new (T := T) elemSize).runM ops = some (tr, v3) ∧
          v2.len = v3.len ∧ v2.cap = v3.cap ∧
          v2.derefSlice = v3.derefSlice) := by
  refine ⟨{ cap := 0, len := 0, slots := [] }, ?_, ?_⟩
  · rw [Refactor2.Vec.new, if_neg h]
  · have hnew : toR3 ({ cap := 0, len := 0, slots := [] } : Refactor2.Vec T)
        = Refactor3.Vec.new elemSize := by
      simp [toR3, Refactor3.Vec.new, Refactor3.RawVec.new, h]
    have hrun :=
      toR3_runM ops ({ cap := 0, len := 0, slots := [] } : Refactor2.Vec T)
    rw [hnew] at hrun
    rcases hr2 : ({ cap := 0, len := 0, slots := [] } : Refactor2.Vec T).runM ops
      with _ | ⟨tr, v2⟩
    · left
      rw [hr2] at hrun
      exact ⟨rfl, hrun.symm⟩
    · right
      rw [hr2] at hrun
      exact ⟨tr, v2, toR3 v2, rfl, hrun.symm, rfl, rfl, rfl⟩

/-- Witness for C10 on a concrete operation sequence. -/
theorem claim10_refactor_equiv_witness :
    ∃ v0 : Refactor2.Vec Nat, Refactor2.Vec.new (T := Nat) 8 = .ok v0 ∧
      ((v0.runM [.push 1, .push 2, .insert 1 9, .remove 0, .pop] = none ∧
          (Refactor3.Vec.new (T := Nat) 8).runM
            [.push 1, .push 2, .insert 1 9, .remove 0, .pop] = none) ∨
        ∃ tr v2 v3,
          v0.runM [.push 1, .push 2, .insert 1 9, .remove 0, .pop]
            = some (tr, v2) ∧
          (Refactor3.Vec.new (T := Nat) 8).runM
            [.push 1, .push 2, .insert 1 9, .remove 0, .pop] = some (tr, v3) ∧
          v2.len = v3.len ∧ v2.cap = v3.cap ∧
          v2.derefSlice = v3.derefSlice) :=
  claim10_refactor_equiv 8 (by decide) [.push 1, .push 2, .insert 1 9, .remove 0, .pop]

end NomiconVec
